import Mathlib

/-!
Verification of the directory-tree report generator
(`directory-tree-excel.js` and its near-duplicate variant).

The JavaScript source is shallowly embedded below.  Strings are modelled by
Lean `String` (with most reasoning performed on the underlying `List Char`),
the platform separator `path.sep` is modelled as `'/'` (the POSIX platform),
the `Set` of exclusion entries is modelled as a `List String` in insertion
order (every use in the source is a pure membership test or iteration, for
which duplicates are irrelevant), and the filesystem is modelled as an
inductive tree whose nodes carry flags saying whether `statSync` /
`readdirSync` on them throws.
-/

namespace DirTree

/-- The separator characters recognised by the tool: the regex `[/\\]`
used in `normalizePath`. -/
def isSep (c : Char) : Bool := c == '/' || c == '\\'

/-- JavaScript `String.prototype.split` with a character-class regex:
splits the character list at every character satisfying `p`, dropping the
separators and keeping (possibly empty) segments; splitting the empty
string yields `[[]]`, matching `"".split(...) == [""]`. -/
def splitBy (p : Char → Bool) : List Char → List (List Char)
  | [] => [[]]
  | c :: rest =>
    if p c then [] :: splitBy p rest
    else
      match splitBy p rest with
      | [] => [[c]]
      | seg :: segs => (c :: seg) :: segs

/-- `Array.prototype.join(path.sep)` with `path.sep` modelled as `'/'`. -/
def joinSep : List (List Char) → List Char
  | [] => []
  | [s] => s
  | s :: s' :: rest => s ++ '/' :: joinSep (s' :: rest)

/-- The segments kept by `normalizePath`: split on `[/\\]` and drop the
empty segments (`filter(Boolean)`). -/
def normSegs (l : List Char) : List (List Char) :=
  (splitBy isSep l).filter (fun s => !s.isEmpty)

/-- Source `normalizePath`:
`inputPath.split(/[/\\]/).filter(Boolean).join(path.sep)`. -/
def normalizePath (s : String) : String :=
  ⟨joinSep (normSegs s.data)⟩

/-- ASCII approximation of the whitespace removed by JavaScript
`String.prototype.trim`. -/
def isJsSpace (c : Char) : Bool :=
  c == ' ' || c == '\t' || c == '\n' || c == '\r' || c == '\x0b' || c == '\x0c'

/-- JavaScript `line.trim()` (ASCII whitespace). -/
def jsTrim (s : String) : String :=
  ⟨((s.data.dropWhile isJsSpace).reverse.dropWhile isJsSpace).reverse⟩

/-- Source `getExclusionList`, applied to the text content of
`TO_EXCLUDE_TREE_TEMP.txt` (an absent file behaves like content `""`):
the set starts with the built-in entry, then every `'\n'`-separated line is
trimmed and, when non-blank, normalized and added. -/
def getExclusionList (content : String) : List String :=
  "TO_EXCLUDE_TREE_TEMP.txt" ::
    (splitBy (fun c => c == '\n') content.data).filterMap (fun line =>
      let t := jsTrim ⟨line⟩
      if t = "" then none else some (normalizePath t))

/-- Does the second list start with the first (`String.prototype.startsWith`,
on character lists)? -/
def beginsWith : List Char → List Char → Bool
  | [], _ => true
  | _ :: _, [] => false
  | a :: as, b :: bs => a == b && beginsWith as bs

/-- The body of `shouldExclude`'s `for (const excludePath of excludeList)`
loop: an entry ending in `path.sep` matches when the normalized candidate
equals the entry minus its final separator (`slice(0, -1)`) or starts with
that prefix followed by the separator; any other entry never matches here. -/
def dirEntryMatches (n : List Char) (e : String) : Bool :=
  if e.data.getLast? == some '/' then
    let d := e.data.dropLast
    n == d || beginsWith (d ++ ['/']) n
  else false

/-- Source `shouldExclude`: normalize the candidate path, test exact set
membership (`excludeList.has`), then run the directory-entry loop. -/
def shouldExclude (itemPath : String) (excludeList : List String) : Bool :=
  let n := (normalizePath itemPath).data
  if excludeList.any (fun e => e.data == n) then true
  else excludeList.any (fun e => dirEntryMatches n e)

/-- Model of `path.extname(name).toLowerCase().slice(1)` for a plain
directory-listing name (both call sites pass `item`, a single listing name,
which never contains a separator).  Node's `extname` returns the text from
the last dot onward, except that it returns `""` when the name has no dot
or when its only dot is the leading character; `slice(1)` then removes the
dot, and a lone trailing dot also yields `""`.  All those `""`/`"."` cases
collapse to the same value after `slice(1)`, giving: the lower-cased text
after the last dot, or `""` when there is no dot or the last dot is the
name's first character. -/
def fileExt (b : List Char) : List Char :=
  let af := (b.reverse.takeWhile (fun c => c != '.')).reverse
  if af.length == b.length then []
  else if af.length + 1 == b.length then []
  else af.map Char.toLower

/-- Source `shouldIncludeFile`, with the global `includedExtensions`
(`null` or a `Set` of lower-cased extensions) passed explicitly. -/
def shouldIncludeFile (includedExtensions : Option (List String)) (filePath : String) : Bool :=
  match includedExtensions with
  | none => true
  | some exts => exts.contains (⟨fileExt filePath.data⟩ : String)

/-- A filesystem subtree.  Every node carries its directory-listing name and
a flag saying whether `fs.statSync` on it throws; a directory additionally
carries a flag saying whether `fs.readdirSync` on it throws, and its
children in the order the listing returns them.  A missing or unreadable
path is the node whose `readdirSync` (for the walker's purposes) throws. -/
inductive FSTree where
  | file (name : String) (statFails : Bool)
  | dir (name : String) (statFails readFails : Bool) (children : List FSTree)

def FSTree.name : FSTree → String
  | .file n _ => n
  | .dir n _ _ _ => n

def FSTree.statFails : FSTree → Bool
  | .file _ s => s
  | .dir _ s _ _ => s

def FSTree.isDir : FSTree → Bool
  | .file _ _ => false
  | .dir _ _ _ _ => true

/-- The children of a directory node (a file has none). -/
def FSTree.childrenList : FSTree → List FSTree
  | .file _ _ => []
  | .dir _ _ _ cs => cs

/-- Message of the error thrown by a failing `statSync`; Node's error text
names the offending path, which is the only aspect the program observes. -/
def statErrMsg (p : String) : String := "stat failed: " ++ p

/-- Message of the error thrown by a failing `readdirSync` (also covers
calling it on a missing path or a non-directory). -/
def readErrMsg (p : String) : String := "readdir failed: " ++ p

/-- The loop of `hasIncludedFiles`' inner closure `checkDir(currentPath)`
run on the already-listed children: for each item it stats the item
(throwing on failure), recurses into sub-directories (whose own
`readdirSync` may throw), and returns `true` on the first file passing
`shouldIncludeFile`.  The captured `hasMatchingFiles` flag of the source is
only ever set immediately before a `return true`, so the final
`return hasMatchingFiles` is reached only with the flag still `false`. -/
def checkItems (exts : List String) (p : String) : List FSTree → Except String Bool
  | [] => .ok false
  | c :: rest =>
    let childP := p ++ "/" ++ c.name
    if c.statFails then .error (statErrMsg childP)
    else
      match c with
      | .file n _ =>
        if shouldIncludeFile (some exts) n then .ok true else checkItems exts p rest
      | .dir _ _ readF cs =>
        if readF then .error (readErrMsg childP)
        else
          match checkItems exts childP cs with
          | .error e => .error e
          | .ok true => .ok true
          | .ok false => checkItems exts p rest

/-- Source `hasIncludedFiles(dirPath)` for the directory at path `p` with
the given `readdirSync` flag and children: with no filter configured it
returns `true` before touching the filesystem; otherwise it runs
`checkDir(dirPath)`, whose initial `readdirSync` may throw. -/
def hasIncludedFiles (filter : Option (List String)) (p : String) (readF : Bool)
    (children : List FSTree) : Except String Bool :=
  match filter with
  | none => .ok true
  | some exts => if readF then .error (readErrMsg p) else checkItems exts p children

/-- The root-relative path of a child item: `getRelativePath(path.join(
dirPath, item), basePath)` joins the listing names from the root with
`'/'`, so a child of the root (whose own relative path is `""`) gets the
bare name and a deeper child gets the parent's relative path, a slash, and
the name. -/
def childRelPath (rel item : String) : String :=
  if rel = "" then item else rel ++ "/" ++ item

/-- One worksheet data row, with the five cells the source writes. -/
structure Entry where
  level : Nat
  type : String
  name : String
  path : String
  status : String
deriving DecidableEq, Repr

/-- `'  '.repeat(level)`: the indentation prefixed to the Name cell. -/
def indentChars (lvl : Nat) : List Char := List.replicate (2 * lvl) ' '

/-- The row the source appends for one item: Level, Type, Name
(indentation plus the listing name), Path (relative path, plus a trailing
slash for a directory), Status (`'pending'`). -/
def mkEntry (lvl : Nat) (isDir : Bool) (item rel : String) : Entry :=
  { level := lvl
    type := if isDir then "Directory" else "File"
    name := (⟨indentChars lvl⟩ : String) ++ item
    path := rel ++ (if isDir then "/" else "")
    status := "pending" }

mutual

/-- Source `processDirectory(dirPath, basePath, excludeList, level)` on the
subtree `t` at absolute path `cur` and root-relative path `rel`
(`getRelativePath` yields `""` for the root itself and otherwise joins the
listing names with `'/'`).  Returns the rows it appended to the worksheet
and the `console.error` logs `(dirPath, error)` emitted by it or its
recursive calls; its own `try/catch` converts an error escaping the loop
into a final log entry, so nothing propagates to the caller. -/
def processDirectory (filter : Option (List String)) (ex : List String) (t : FSTree)
    (cur rel : String) (lvl : Nat) : List Entry × List (String × String) :=
  match t with
  | .file _ _ => ([], [(cur, readErrMsg cur)])
  | .dir _ _ readF children =>
    if readF then ([], [(cur, readErrMsg cur)])
    else
      match hasIncludedFiles filter cur readF children with
      | .error e => ([], [(cur, e)])
      | .ok false => ([], [])
      | .ok true =>
        match procItems filter ex cur rel lvl children with
        | (rows, logs, none) => (rows, logs)
        | (rows, logs, some e) => (rows, logs ++ [(cur, e)])

/-- The `for (const item of items)` loop of `processDirectory` over the
remaining children.  Returns the rows emitted in order, the logs of
completed recursive calls, and the error (if any) that escapes the loop to
the enclosing `try/catch` — an exclusion skip happens before the stat, a
stat failure aborts the rest of the loop, and a directory child is
re-checked with `hasIncludedFiles(fullPath)` (which may itself throw)
before its row is emitted and the walker recurses into it. -/
def procItems (filter : Option (List String)) (ex : List String) (cur rel : String)
    (lvl : Nat) : List FSTree → List Entry × List (String × String) × Option String
  | [] => ([], [], none)
  | c :: rest =>
    let item := c.name
    let childCur := cur ++ "/" ++ item
    let childRel := childRelPath rel item
    if shouldExclude childRel ex then procItems filter ex cur rel lvl rest
    else if c.statFails then ([], [], some (statErrMsg childCur))
    else
      match c with
      | .file n _ =>
        if shouldIncludeFile filter n then
          let (rows, logs, err) := procItems filter ex cur rel lvl rest
          (mkEntry lvl false n childRel :: rows, logs, err)
        else procItems filter ex cur rel lvl rest
      | .dir n sF readF cs =>
        match hasIncludedFiles filter childCur readF cs with
        | .error e => ([], [], some e)
        | .ok false => procItems filter ex cur rel lvl rest
        | .ok true =>
          let sub := processDirectory filter ex (.dir n sF readF cs) childCur childRel (lvl + 1)
          let (rows, logs, err) := procItems filter ex cur rel lvl rest
          (mkEntry lvl true n childRel :: (sub.1 ++ rows), sub.2 ++ logs, err)

end

/-- The data a run leaves behind: the worksheet's data rows (written to
`directory-tree.xlsx`) and the console error log. -/
structure Report where
  rows : List Entry
  logs : List (String × String)
deriving DecidableEq, Repr

/-- Source `generateExcel`: resolve the root, build the exclusion set from
the content of the exclusion file (`""` when absent), walk the root, and
write the workbook.  `processDirectory` never throws (it catches and logs),
so the write at the end of the `try` block is always reached: the report is
produced unconditionally, and `generateExcel`'s own `catch` would only fire
on a failure of the external workbook write. -/
def generateExcel (filter : Option (List String)) (exContent : String) (root : FSTree)
    (basePath : String) : Report :=
  let ex := getExclusionList exContent
  let (rows, logs) := processDirectory filter ex root basePath "" 0
  ⟨rows, logs⟩

/-- Replacing every separator character by the canonical one; two strings
with the same image differ only in which separator they use where. -/
def canonChar (c : Char) : Char := if isSep c then '/' else c

/-- Modelled from the spec's words, for comparison with `fileExt`:
"the text after the last dot", `none` when the name has no dot. -/
def textAfterLastDot : List Char → Option (List Char)
  | [] => none
  | c :: rest =>
    match textAfterLastDot rest with
    | some e => some e
    | none => if c = '.' then some rest else none

/-- The amended extension rule: the text after the last dot, except that a
dot that is the name's first character does not begin an extension (so a
leading-dot name such as `.gitignore` has extension `""`). -/
def extAmended (b : List Char) : List Char :=
  match textAfterLastDot b with
  | none => []
  | some e => if b = '.' :: e then [] else e

mutual

/-- No `statSync`/`readdirSync` call in the subtree fails. -/
def FSTree.allOk : FSTree → Bool
  | .file _ sF => !sF
  | .dir _ sF rF cs => !sF && !rF && allOkList cs

/-- `allOk` over a listing. -/
def allOkList : List FSTree → Bool
  | [] => true
  | c :: rest => c.allOk && allOkList rest

end

/-- A well-formed directory-listing name: non-empty and free of separator
characters, as `readdir` names always are. -/
def okName (n : String) : Bool := !n.isEmpty && n.data.all (fun c => !isSep c)

mutual

/-- Every name in the subtree is a well-formed listing name. -/
def FSTree.cleanNames : FSTree → Bool
  | .file n _ => okName n
  | .dir n _ _ cs => okName n && cleanNamesList cs

/-- `cleanNames` over a listing. -/
def cleanNamesList : List FSTree → Bool
  | [] => true
  | c :: rest => c.cleanNames && cleanNamesList rest

end

mutual

/-- Pure form of the subtree check on an error-free tree: does the subtree
contain a file passing the extension filter? -/
def anyIncluded (exts : List String) : FSTree → Bool
  | .file n _ => shouldIncludeFile (some exts) n
  | .dir _ _ _ cs => anyIncludedList exts cs

/-- `anyIncluded` over a listing. -/
def anyIncludedList (exts : List String) : List FSTree → Bool
  | [] => false
  | c :: rest => anyIncluded exts c || anyIncludedList exts rest

end

/-- Modelled from the spec (§4.2 steps 4-5), for comparison with the
walker: does the extension filter keep this child? -/
def specKeeps (filter : Option (List String)) : FSTree → Bool
  | .file n _ => shouldIncludeFile filter n
  | .dir _ _ _ cs =>
    match filter with
    | none => true
    | some exts => anyIncludedList exts cs

/-- Modelled from the spec (§3 and §4.2), for comparison with the walker:
the pre-order emission sequence over an error-free tree — children in
listing order, each kept child's row immediately followed by the rows of
its own subtree. -/
def specRows (filter : Option (List String)) (ex : List String) (rel : String) (lvl : Nat) :
    List FSTree → List Entry
  | [] => []
  | c :: rest =>
    let childRel := childRelPath rel c.name
    (if !shouldExclude childRel ex && specKeeps filter c then
      match c with
      | .file n _ => [mkEntry lvl false n childRel]
      | .dir n _ _ cs => mkEntry lvl true n childRel :: specRows filter ex childRel (lvl + 1) cs
    else []) ++ specRows filter ex rel lvl rest

/-- The canonical segments of a relative path string. -/
def pathSegs (s : String) : List (List Char) := normSegs s.data

/-- The last canonical segment of a relative path (ignores a trailing
separator). -/
def lastSeg (s : String) : String := ⟨(pathSegs s).getLastD []⟩

/-- The path with its last canonical segment removed. -/
def parentPath (s : String) : String := ⟨joinSep (pathSegs s).dropLast⟩

/-- The path without its trailing separator, if it carries one. -/
def stripSlash (s : String) : String :=
  if s.data.getLast? == some '/' then ⟨s.data.dropLast⟩ else s

/-- The Name cell of a row is its indentation followed by the raw listing
name of the item, which is the last segment of its Path cell, itself a
well-formed listing name. -/
def entryNameOK (e : Entry) : Prop :=
  e.name = (⟨indentChars e.level⟩ : String) ++ lastSeg e.path ∧
    okName (lastSeg e.path) = true

/-- The tree-shape invariant of a row sequence produced below the relative
path `rel` at depth `lvl`: every row's Path has exactly `level + 1`
canonical segments, sits at depth at least `lvl`, rows at depth `lvl` have
`rel` as their parent path, and every deeper row is preceded in the
sequence by a Directory row one level up whose Path (without its trailing
slash) is exactly the row's parent path. -/
def rowsWF (rel : String) (lvl : Nat) (rows : List Entry) : Prop :=
  ∀ l₁ e l₂, rows = l₁ ++ e :: l₂ →
    (pathSegs e.path).length = e.level + 1 ∧
    lvl ≤ e.level ∧
    (e.level = lvl → parentPath e.path = rel) ∧
    (lvl < e.level → ∃ d ∈ l₁, d.type = "Directory" ∧ d.level + 1 = e.level ∧
      stripSlash d.path = parentPath e.path)

/-! ## Lemmas about splitting and joining -/

theorem splitBy_ne_nil (p : Char → Bool) (l : List Char) : splitBy p l ≠ [] := by
  cases l with
  | nil => simp [splitBy]
  | cons c rest =>
    simp only [splitBy]
    split
    · simp
    · split <;> simp

theorem splitBy_sep_free (p : Char → Bool) (l : List Char) :
    ∀ seg ∈ splitBy p l, ∀ c ∈ seg, p c = false := by
  induction l with
  | nil =>
    intro seg hs c hc
    simp only [splitBy, List.mem_singleton] at hs
    subst hs; simp at hc
  | cons x rest ih =>
    intro seg hs c hc
    by_cases hx : p x
    · simp only [splitBy, if_pos hx, List.mem_cons] at hs
      rcases hs with h | h
      · subst h; simp at hc
      · exact ih seg h c hc
    · cases hsplit : splitBy p rest with
      | nil => exact absurd hsplit (splitBy_ne_nil p rest)
      | cons s ss =>
        simp only [splitBy, if_neg hx, hsplit, List.mem_cons] at hs
        rcases hs with h | h
        · subst h
          rcases List.mem_cons.mp hc with h1 | h1
          · subst h1; exact Bool.of_not_eq_true hx
          · exact ih s (by simp [hsplit]) c h1
        · exact ih seg (by simp [hsplit, h]) c hc

theorem splitBy_of_sep_free (p : Char → Bool) (l : List Char)
    (h : ∀ c ∈ l, p c = false) : splitBy p l = [l] := by
  induction l with
  | nil => rfl
  | cons x rest ih =>
    have hx : p x = false := h x (List.mem_cons_self x rest)
    have hrest := ih (fun c hc => h c (List.mem_cons_of_mem x hc))
    simp [splitBy, hx, hrest]

theorem splitBy_append_sep (p : Char → Bool) {c : Char} (hc : p c = true) :
    ∀ a b : List Char, splitBy p (a ++ c :: b) = splitBy p a ++ splitBy p b := by
  intro a b
  induction a with
  | nil => simp [splitBy, hc]
  | cons x a' ih =>
    by_cases hx : p x
    · simp [splitBy, hx, ih]
    · cases hsplit : splitBy p a' with
      | nil => exact absurd hsplit (splitBy_ne_nil p a')
      | cons s ss =>
        simp only [List.cons_append, splitBy, if_neg hx, List.append_eq, ih, hsplit]

theorem joinSep_append {B : List (List Char)} (hB : B ≠ []) :
    ∀ A : List (List Char), A ≠ [] → joinSep (A ++ B) = joinSep A ++ '/' :: joinSep B := by
  intro A
  induction A with
  | nil => intro h; exact absurd rfl h
  | cons s A' ih =>
    intro _
    cases A' with
    | nil =>
      cases B with
      | nil => exact absurd rfl hB
      | cons b bs => simp [joinSep]
    | cons s' A'' =>
      have h2 := ih (by simp)
      calc joinSep ((s :: s' :: A'') ++ B)
          = s ++ '/' :: joinSep ((s' :: A'') ++ B) := rfl
        _ = s ++ '/' :: (joinSep (s' :: A'') ++ '/' :: joinSep B) := by rw [h2]
        _ = (s ++ '/' :: joinSep (s' :: A'')) ++ '/' :: joinSep B := by simp
        _ = joinSep (s :: s' :: A'') ++ '/' :: joinSep B := rfl

theorem splitBy_joinSep (S : List (List Char))
    (h : ∀ s ∈ S, s ≠ [] ∧ ∀ c ∈ s, isSep c = false) (hS : S ≠ []) :
    splitBy isSep (joinSep S) = S := by
  induction S with
  | nil => exact absurd rfl hS
  | cons s S' ih =>
    cases S' with
    | nil =>
      simp only [joinSep]
      exact splitBy_of_sep_free isSep s (h s (by simp)).2
    | cons s' S'' =>
      have hjoin : joinSep (s :: s' :: S'') = s ++ '/' :: joinSep (s' :: S'') := rfl
      rw [hjoin, splitBy_append_sep isSep (by decide),
        splitBy_of_sep_free isSep s (h s (by simp)).2,
        ih (fun t ht => h t (List.mem_cons_of_mem s ht)) (by simp)]
      rfl

theorem normSegs_props (l : List Char) :
    ∀ s ∈ normSegs l, s ≠ [] ∧ ∀ c ∈ s, isSep c = false := by
  intro s hs
  have hmem := List.mem_of_mem_filter hs
  have hne := List.of_mem_filter hs
  refine ⟨?_, splitBy_sep_free isSep l s hmem⟩
  intro hnil
  subst hnil
  simp at hne

theorem normSegs_joinSep (S : List (List Char))
    (h : ∀ s ∈ S, s ≠ [] ∧ ∀ c ∈ s, isSep c = false) :
    normSegs (joinSep S) = S := by
  cases hS : S with
  | nil => rfl
  | cons s S' =>
    rw [← hS]
    unfold normSegs
    rw [splitBy_joinSep S h (by simp [hS])]
    apply List.filter_eq_self.mpr
    intro t ht
    have := (h t ht).1
    simpa [List.isEmpty_iff] using this

theorem normSegs_append_sep {c : Char} (hc : isSep c = true) (a b : List Char) :
    normSegs (a ++ c :: b) = normSegs a ++ normSegs b := by
  unfold normSegs
  rw [splitBy_append_sep isSep hc, List.filter_append]

theorem normalizePath_data (s : String) :
    (normalizePath s).data = joinSep (normSegs s.data) := rfl

theorem normalizePath_mk (l : List Char) :
    normalizePath ⟨l⟩ = ⟨joinSep (normSegs l)⟩ := rfl

theorem normalizePath_idem (s : String) :
    normalizePath (normalizePath s) = normalizePath s := by
  apply String.ext
  show joinSep (normSegs (joinSep (normSegs s.data))) = joinSep (normSegs s.data)
  rw [normSegs_joinSep (normSegs s.data) (normSegs_props s.data)]

theorem beginsWith_append_self : ∀ a r : List Char, beginsWith a (a ++ r) = true := by
  intro a r
  induction a with
  | nil => rfl
  | cons x as ih => simp [beginsWith, ih]

theorem beginsWith_cancel : ∀ a b c : List Char, beginsWith (a ++ b) (a ++ c) = beginsWith b c := by
  intro a b c
  induction a with
  | nil => rfl
  | cons x as ih => simp [beginsWith, ih]

theorem joinSep_concat_append (S : List (List Char)) (t u : List Char) :
    joinSep (S ++ [t]) ++ u = joinSep (S ++ [t ++ u]) := by
  induction S with
  | nil => simp [joinSep]
  | cons s S' ih =>
    cases S' with
    | nil => simp [joinSep]
    | cons s' S'' =>
      have h1 : joinSep ((s :: s' :: S'') ++ [t]) = s ++ '/' :: joinSep ((s' :: S'') ++ [t]) := rfl
      have h2 : joinSep ((s :: s' :: S'') ++ [t ++ u]) =
          s ++ '/' :: joinSep ((s' :: S'') ++ [t ++ u]) := rfl
      rw [h1, h2, List.append_assoc, List.cons_append, ih]

theorem data_ne_nil_of_ne_empty {d : String} (hne : d ≠ "") : d.data ≠ [] := by
  intro h
  exact hne (String.ext (h.trans rfl))

theorem canon_data {d : String} (hd : normalizePath d = d) :
    joinSep (normSegs d.data) = d.data := congrArg String.data hd

theorem normSegs_ne_nil_of_canon {d : String} (hd : normalizePath d = d) (hne : d ≠ "") :
    normSegs d.data ≠ [] := by
  intro h
  apply data_ne_nil_of_ne_empty hne
  have h2 := canon_data hd
  rw [h] at h2
  exact h2.symm

theorem splitBy_map_canon (l : List Char) :
    splitBy isSep (l.map canonChar) = splitBy isSep l := by
  induction l with
  | nil => rfl
  | cons c rest ih =>
    by_cases hc : isSep c
    · have h1 : canonChar c = '/' := by simp [canonChar, hc]
      have h2 : isSep '/' = true := by decide
      simp [splitBy, h1, hc, h2, ih]
    · have h1 : canonChar c = c := by simp [canonChar, hc]
      simp only [List.map_cons, h1, splitBy, if_neg hc, ih]

theorem shouldExclude_eq (itemPath : String) (L : List String) :
    shouldExclude itemPath L =
      (L.any (fun e => e.data == (normalizePath itemPath).data) ||
        L.any (fun e => dirEntryMatches (normalizePath itemPath).data e)) := by
  unfold shouldExclude
  by_cases h : L.any (fun e => e.data == (normalizePath itemPath).data) = true
  · simp [h]
  · simp [h]
  
theorem shouldExclude_of_matches {itemPath : String} {L : List String} {e : String}
    (hmem : e ∈ L) (h : dirEntryMatches (normalizePath itemPath).data e = true) :
    shouldExclude itemPath L = true := by
  rw [shouldExclude_eq]
  exact Bool.or_eq_true_iff.mpr (Or.inr (List.any_eq_true.mpr ⟨e, hmem, h⟩))

theorem slash_data_append (d : String) : (d ++ "/").data = d.data ++ ['/'] := by
  rw [String.data_append]

theorem dirEntryMatches_descendant {d : String} (hd : normalizePath d = d) (hne : d ≠ "")
    (s : String) : dirEntryMatches (normalizePath (d ++ "/" ++ s)).data (d ++ "/") = true := by
  have hdata : (d ++ "/" ++ s).data = d.data ++ '/' :: s.data := by
    rw [String.data_append, slash_data_append, List.append_assoc]
    rfl
  have hsegs : normSegs (d ++ "/" ++ s).data = normSegs d.data ++ normSegs s.data := by
    rw [hdata]
    exact normSegs_append_sep (by decide) _ _
  have hn : (normalizePath (d ++ "/" ++ s)).data = joinSep (normSegs d.data ++ normSegs s.data) := by
    rw [normalizePath_data, hsegs]
  unfold dirEntryMatches
  rw [slash_data_append, List.getLast?_concat, List.dropLast_concat]
  simp only [beq_self_eq_true, if_true]
  rcases hB : normSegs s.data with _ | ⟨b, B'⟩
  · have : (normalizePath (d ++ "/" ++ s)).data = d.data := by
      rw [hn, hB, List.append_nil, canon_data hd]
    rw [this]
    simp
  · have hA := normSegs_ne_nil_of_canon hd hne
    have : (normalizePath (d ++ "/" ++ s)).data =
        (d.data ++ ['/']) ++ joinSep (normSegs s.data) := by
      rw [hn, joinSep_append (by rw [hB]; simp) _ hA, canon_data hd,
        List.append_assoc]
      rfl
    rw [this]
    simp only [beginsWith_append_self, Bool.or_true]
  
theorem normalize_extend {d y : String} (hd : normalizePath d = d) (hne : d ≠ "")
    (hysep : ∀ c ∈ y.data, isSep c = false) :
    (normalizePath (d ++ y)).data = d.data ++ y.data := by
  rcases (List.eq_nil_or_concat (normSegs d.data)) with h | ⟨A', a, hA⟩
  · exact absurd h (normSegs_ne_nil_of_canon hd hne)
  · rw [List.concat_eq_append] at hA
    have hprops := normSegs_props d.data
    have hdy : (d ++ y).data = joinSep (A' ++ [a ++ y.data]) := by
      rw [String.data_append, ← canon_data hd, hA, joinSep_concat_append]
    have hnew : ∀ t ∈ A' ++ [a ++ y.data], t ≠ [] ∧ ∀ c ∈ t, isSep c = false := by
      intro t ht
      rcases List.mem_append.mp ht with h1 | h1
      · exact hprops t (by rw [hA]; exact List.mem_append.mpr (Or.inl h1))
      · have ha := hprops a (by rw [hA]; exact List.mem_append.mpr (Or.inr (by simp)))
        have ht2 : t = a ++ y.data := by simpa using h1
        subst ht2
        constructor
        · intro hnil
          exact ha.1 (List.append_eq_nil.mp hnil).1
        · intro c hc
          rcases List.mem_append.mp hc with h2 | h2
          · exact ha.2 c h2
          · exact hysep c h2
    rw [normalizePath_data, hdy, normSegs_joinSep _ hnew, ← joinSep_concat_append, ← hA,
      canon_data hd]

/-- C9: `normalizePath` is idempotent, and two input strings that differ
only in which platform separator they use between the same segments (equal
character lists once every separator is replaced by the canonical one)
normalize to the same canonical string. -/
theorem normalizePath_idem_sep_agnostic :
    (∀ s : String, normalizePath (normalizePath s) = normalizePath s) ∧
      ∀ s t : String, s.data.map canonChar = t.data.map canonChar →
        normalizePath s = normalizePath t := by
  refine ⟨normalizePath_idem, fun s t h => ?_⟩
  apply String.ext
  rw [normalizePath_data, normalizePath_data]
  unfold normSegs
  rw [← splitBy_map_canon s.data, ← splitBy_map_canon t.data, h]

/-- Witness for C9 at the spec's example pair. -/
theorem normalizePath_idem_sep_agnostic_witness :
    normalizePath (normalizePath "a/b\\c") = normalizePath "a/b\\c" ∧
      normalizePath "a/b\\c" = normalizePath "a\\b/c" :=
  ⟨normalizePath_idem_sep_agnostic.1 "a/b\\c",
    normalizePath_idem_sep_agnostic.2 "a/b\\c" "a\\b/c" (by decide)⟩

/-- C6 counterexample: the exclusion set containing only the entry `"/"` —
an entry that ends in the canonical separator — and the path `"/x"`, which
is the entry's stripped form `""` followed by the separator and a suffix;
the claim says such a descendant is excluded, but `shouldExclude` returns
`false` on it. -/
theorem shouldExclude_dir_entry_counterexample :
    ("/" : String).data.getLast? = some '/' ∧
      ("" : String) ++ "/" ++ "x" = "/x" ∧
      shouldExclude "/x" ["/"] = false := by decide

/-- C6 (amended): for an exclusion entry `d ++ "/"` ending in the canonical
separator whose stripped form `d` is a non-empty normalized path, any set
containing the entry makes `shouldExclude` accept the stripped path itself
and every descendant `d ++ "/" ++ s`; for the singleton set of that entry,
a sibling `d ++ y` that extends `d` without an intervening separator is not
excluded, and matching is exact-segment, never substring: the entry
`"src/lib"` does not match the path `"src/library"`. -/
theorem shouldExclude_dir_entry (d y : String) (L : List String)
    (hd : normalizePath d = d) (hne : d ≠ "") (hmem : (d ++ "/") ∈ L)
    (hy : y ≠ "") (hysep : ∀ c ∈ y.data, isSep c = false) :
    shouldExclude d L = true ∧
      (∀ s : String, shouldExclude (d ++ "/" ++ s) L = true) ∧
      shouldExclude (d ++ y) [d ++ "/"] = false ∧
      shouldExclude "src/library" ["src/lib"] = false := by
  refine ⟨?_, fun s => shouldExclude_of_matches hmem (dirEntryMatches_descendant hd hne s),
    ?_, by decide⟩
  · apply shouldExclude_of_matches hmem
    unfold dirEntryMatches
    rw [slash_data_append, List.getLast?_concat, List.dropLast_concat, hd]
    simp
  · rw [shouldExclude_eq]
    have hn := normalize_extend hd hne hysep
    have hydata : y.data ≠ [] := data_ne_nil_of_ne_empty hy
    apply Bool.or_eq_false_iff.mpr
    constructor
    · simp only [List.any_cons, List.any_nil, Bool.or_false]
      rw [hn, slash_data_append]
      apply beq_eq_false_iff_ne.mpr
      intro heq
      have h2 := List.append_cancel_left heq
      have h3 : isSep '/' = false := hysep '/' (by rw [← h2]; simp)
      simp [isSep] at h3
    · simp only [List.any_cons, List.any_nil, Bool.or_false]
      unfold dirEntryMatches
      rw [slash_data_append, List.getLast?_concat, List.dropLast_concat, hn]
      simp only [beq_self_eq_true, if_true]
      apply Bool.or_eq_false_iff.mpr
      constructor
      · apply beq_eq_false_iff_ne.mpr
        intro heq
        have hlen := congrArg List.length heq
        rw [List.length_append] at hlen
        have h4 : y.data.length = 0 := by omega
        exact hydata (List.length_eq_zero.mp h4)
      · rw [beginsWith_cancel d.data ['/'] y.data]
        cases hyd : y.data with
        | nil => exact absurd hyd hydata
        | cons yc ys =>
          have h5 : isSep yc = false := hysep yc (by rw [hyd]; simp)
          have hne2 : ('/' == yc) = false := by
            apply beq_eq_false_iff_ne.mpr
            intro h6
            rw [← h6] at h5
            simp [isSep] at h5
          simp [beginsWith, hne2]

/-- Witness for the amended C6 at the spec's `src/lib` example. -/
theorem shouldExclude_dir_entry_witness :
    shouldExclude "src/lib" ["src/lib/"] = true ∧
      shouldExclude ("src/lib" ++ "/" ++ "x") ["src/lib/"] = true ∧
      shouldExclude ("src/lib" ++ "rary") ["src/lib/"] = false :=
  have h := shouldExclude_dir_entry "src/lib" "rary" ["src/lib/"] (by decide) (by decide)
    (by decide) (by decide) (by decide)
  ⟨h.1, h.2.1 "x", h.2.2.1⟩

/-! ## The extension rule -/

theorem textAfterLastDot_eq_none_iff (b : List Char) :
    textAfterLastDot b = none ↔ '.' ∉ b := by
  induction b with
  | nil => simp [textAfterLastDot]
  | cons c rest ih =>
    cases h : textAfterLastDot rest with
    | some e =>
      have h2 : '.' ∈ rest := by
        by_contra hc
        rw [ih.mpr hc] at h
        exact Option.noConfusion h
      simp [textAfterLastDot, h, h2]
    | none =>
      have h2 : '.' ∉ rest := ih.mp h
      by_cases hc : c = '.'
      · subst hc
        simp [textAfterLastDot, h]
      · simp [textAfterLastDot, h, hc, h2, Ne.symm hc]

theorem textAfterLastDot_decomp {b e : List Char} (h : textAfterLastDot b = some e) :
    ∃ pre, b = pre ++ '.' :: e ∧ '.' ∉ e := by
  induction b with
  | nil => exact Option.noConfusion h
  | cons c rest ih =>
    cases h2 : textAfterLastDot rest with
    | some e' =>
      have he : e' = e := by
        simp only [textAfterLastDot, h2] at h
        exact Option.some.inj h
      subst he
      obtain ⟨pre, hp, hd⟩ := ih h2
      exact ⟨c :: pre, by rw [hp]; rfl, hd⟩
    | none =>
      simp only [textAfterLastDot, h2] at h
      by_cases hc : c = '.'
      · rw [if_pos hc] at h
        have h3 : rest = e := Option.some.inj h
        subst h3
        subst hc
        exact ⟨[], rfl, (textAfterLastDot_eq_none_iff rest).mp h2⟩
      · rw [if_neg hc] at h
        exact Option.noConfusion h

theorem takeWhile_all {p : Char → Bool} :
    ∀ {l : List Char}, (∀ c ∈ l, p c = true) → l.takeWhile p = l := by
  intro l h
  induction l with
  | nil => rfl
  | cons a l' ih =>
    have ha : p a = true := h a (by simp)
    simp [List.takeWhile_cons, ha, ih (fun c hc => h c (by simp [hc]))]

theorem takeWhile_append_stop {p : Char → Bool} {l : List Char} (hl : ∀ c ∈ l, p c = true)
    {x : Char} (hx : p x = false) (m : List Char) :
    (l ++ x :: m).takeWhile p = l := by
  induction l with
  | nil => simp [List.takeWhile_cons, hx]
  | cons a l' ih =>
    have ha : p a = true := hl a (by simp)
    simp [List.takeWhile_cons, ha, ih (fun c hc => hl c (by simp [hc]))]

theorem af_of_decomp {pre e : List Char} (he : '.' ∉ e) :
    ((pre ++ '.' :: e).reverse.takeWhile (fun c => c != '.')).reverse = e := by
  have h1 : (pre ++ '.' :: e).reverse = e.reverse ++ '.' :: pre.reverse := by
    rw [List.reverse_append, List.reverse_cons, List.append_assoc]
    rfl
  have hl : ∀ c ∈ e.reverse, (c != '.') = true := by
    intro c hc
    have h2 : c ∈ e := List.mem_reverse.mp hc
    simp only [bne_iff_ne, ne_eq]
    intro h3
    subst h3
    exact he h2
  rw [h1, takeWhile_append_stop hl (by simp), List.reverse_reverse]

theorem af_of_no_dot {b : List Char} (h : '.' ∉ b) :
    ((b.reverse.takeWhile (fun c => c != '.')).reverse) = b := by
  have hl : ∀ c ∈ b.reverse, (c != '.') = true := by
    intro c hc
    have h2 : c ∈ b := List.mem_reverse.mp hc
    simp only [bne_iff_ne, ne_eq]
    intro h3
    subst h3
    exact h h2
  rw [takeWhile_all hl, List.reverse_reverse]

theorem fileExt_eq_extAmended (b : List Char) :
    fileExt b = (extAmended b).map Char.toLower := by
  cases h : textAfterLastDot b with
  | none =>
    have hb : '.' ∉ b := (textAfterLastDot_eq_none_iff b).mp h
    unfold fileExt extAmended
    rw [h]
    simp [af_of_no_dot hb]
  | some e =>
    obtain ⟨pre, hp, hd⟩ := textAfterLastDot_decomp h
    unfold fileExt extAmended
    rw [h]
    subst hp
    rw [af_of_decomp hd]
    have hl1 : (e.length == (pre ++ '.' :: e).length) = false := by
      apply beq_eq_false_iff_ne.mpr
      simp only [List.length_append, List.length_cons]
      omega
    by_cases hpre : pre = []
    · subst hpre
      simp
    · have hlen : pre.length ≠ 0 := fun h2 => hpre (List.length_eq_zero.mp h2)
      have hl2 : (e.length + 1 == (pre ++ '.' :: e).length) = false := by
        apply beq_eq_false_iff_ne.mpr
        simp only [List.length_append, List.length_cons]
        omega
      have hl3 : pre ++ '.' :: e ≠ '.' :: e := by
        intro h2
        have h3 := congrArg List.length h2
        simp only [List.length_append, List.length_cons] at h3
        omega
      simp only [hl1, hl2, Bool.false_eq_true, if_false, if_neg hl3]

/-- C4 counterexample: the name `.gitignore` — whose text after the last
dot is `gitignore` — does not pass the filter `{"gitignore"}`, because
`path.extname` treats a dot in leading position as not beginning an
extension and returns the empty string. -/
theorem shouldIncludeFile_dotfile_counterexample :
    textAfterLastDot ".gitignore".data = some "gitignore".data ∧
      shouldIncludeFile (some ["gitignore"]) ".gitignore" = false := by decide

/-- C4 (amended): `shouldIncludeFile` returns `true` when no filter is
configured, and otherwise returns `true` iff the lower-cased extension of
the name — the text after the last dot, empty if there is no dot or the
last dot is the name's first character — is a member of the filter set
(so `.gitignore` has the empty extension and does not pass
`{"gitignore"}`). -/
theorem shouldIncludeFile_ext_rule (n : String) (exts : List String) :
    shouldIncludeFile none n = true ∧
      (shouldIncludeFile (some exts) n = true ↔
        (⟨(extAmended n.data).map Char.toLower⟩ : String) ∈ exts) := by
  refine ⟨rfl, ?_⟩
  show (exts.contains (⟨fileExt n.data⟩ : String) = true) ↔ _
  rw [fileExt_eq_extAmended]
  exact List.elem_iff

/-- C1: the README documents that a trailing slash on an exclusion line
excludes the directory and everything beneath it, but `getExclusionList`
normalizes each line and `normalizePath` drops the empty segment after the
trailing separator, so the directory marker is lost: the stored entry for
the line `build/` is `build`, and neither `build/output.txt` nor
`builder/output.txt` is excluded. -/
theorem getExclusionList_loses_dir_marker :
    getExclusionList "build/\n" = ["TO_EXCLUDE_TREE_TEMP.txt", "build"] ∧
      shouldExclude "build/output.txt" (getExclusionList "build/\n") = false ∧
      shouldExclude "builder/output.txt" (getExclusionList "build/\n") = false := by decide

/-! ## The walker on error-free trees -/

theorem allOkList_parts {c : FSTree} {rest : List FSTree} (h : allOkList (c :: rest) = true) :
    c.allOk = true ∧ allOkList rest = true := by
  simpa [allOkList] using h

theorem allOk_dir_parts {n : String} {sF rF : Bool} {cs : List FSTree}
    (h : (FSTree.dir n sF rF cs).allOk = true) :
    sF = false ∧ rF = false ∧ allOkList cs = true := by
  simpa [FSTree.allOk, and_assoc] using h

theorem allOk_statFails {t : FSTree} (h : t.allOk = true) : t.statFails = false := by
  cases t with
  | file n sF =>
    simp [FSTree.allOk] at h
    simpa [FSTree.statFails] using h
  | dir n sF rF cs =>
    simp [FSTree.allOk, allOkList] at h
    simp [FSTree.statFails, h.1]

theorem checkItems_spec (exts : List String) :
    ∀ (p : String) (ts : List FSTree), allOkList ts = true →
      checkItems exts p ts = .ok (anyIncludedList exts ts) := by
  refine checkItems.induct exts
    (fun p ts => allOkList ts = true →
      checkItems exts p ts = .ok (anyIncludedList exts ts)) ?_ ?_ ?_ ?_ ?_ ?_ ?_ ?_
  · intro p _
    simp [checkItems, anyIncludedList]
  · intro p c rest hsf h
    exact absurd hsf (by simp [allOk_statFails (allOkList_parts h).1])
  · intro p rest n sF hinc hsf _
    simp [checkItems, anyIncludedList, anyIncluded, hinc, hsf]
  · intro p rest n sF hninc hsf ih h
    simp [checkItems, anyIncludedList, anyIncluded, hninc, hsf, ih (allOkList_parts h).2]
  · intro p rest n sF cs hsf h
    have h2 := (allOk_dir_parts (allOkList_parts h).1).2.1
    exact absurd h2 (by simp)
  · intro p rest n sF rF cs hrf e childP hsf herr ih h
    have hcs := (allOk_dir_parts (allOkList_parts h).1).2.2
    rw [ih hcs] at herr
    exact Except.noConfusion herr
  · intro p rest n sF rF cs hrf childP hsf hok ih h
    have hcs := (allOk_dir_parts (allOkList_parts h).1).2.2
    have h3 : anyIncludedList exts cs = true := Except.ok.inj ((ih hcs).symm.trans hok)
    simp only [FSTree.statFails] at hsf
    have hok2 : checkItems exts (p ++ "/" ++ n) cs = Except.ok true := hok
    simp [checkItems, hsf, hrf, hok2, anyIncludedList, anyIncluded, FSTree.name,
      FSTree.statFails, h3]
  · intro p rest n sF rF cs hrf childP hsf hok ihc ihr h
    have hp := allOkList_parts h
    have hcs := (allOk_dir_parts hp.1).2.2
    have h3 : anyIncludedList exts cs = false := Except.ok.inj ((ihc hcs).symm.trans hok)
    simp only [FSTree.statFails] at hsf
    have hok2 : checkItems exts (p ++ "/" ++ n) cs = Except.ok false := hok
    simp [checkItems, hsf, hrf, hok2, anyIncludedList, anyIncluded, FSTree.name,
      FSTree.statFails, h3, ihr hp.2]

theorem specRows_nil_of_no_match (exts ex : List String) (rel : String) (lvl : Nat) :
    ∀ ts : List FSTree, anyIncludedList exts ts = false →
      specRows (some exts) ex rel lvl ts = [] := by
  intro ts
  induction ts with
  | nil => intro _; simp [specRows]
  | cons c rest ih =>
    intro h
    rw [anyIncludedList] at h
    have h1 : anyIncluded exts c = false := by
      cases h2 : anyIncluded exts c
      · rfl
      · rw [h2] at h; simp at h
    have h2 : anyIncludedList exts rest = false := by
      rw [h1] at h; simpa using h
    have hkeep : specKeeps (some exts) c = false := by
      cases c with
      | file n sF =>
        rw [anyIncluded] at h1
        simp [specKeeps, h1]
      | dir n sF rF cs =>
        rw [anyIncluded] at h1
        simp [specKeeps, h1]
    rw [specRows.eq_def]
    simp [hkeep, ih h2]

theorem procItems_spec (filter : Option (List String)) (ex : List String) :
    ∀ (cur rel : String) (lvl : Nat) (ts : List FSTree), allOkList ts = true →
      procItems filter ex cur rel lvl ts = (specRows filter ex rel lvl ts, [], none) := by
  refine procItems.induct filter ex
    (fun t cur rel lvl => t.isDir = true → t.allOk = true →
      processDirectory filter ex t cur rel lvl =
        (specRows filter ex rel lvl t.childrenList, []))
    (fun cur rel lvl ts => allOkList ts = true →
      procItems filter ex cur rel lvl ts = (specRows filter ex rel lvl ts, [], none))
    ?_ ?_ ?_ ?_ ?_ ?_ ?_ ?_ ?_ ?_ ?_ ?_ ?_ ?_
  · -- processDirectory on a file node: excluded by isDir
    intro cur rel lvl n sF hdir _
    simp [FSTree.isDir] at hdir
  · -- processDirectory on a dir whose readdir fails: excluded by allOk
    intro cur rel lvl n sF cs _ hok
    have h2 := (allOk_dir_parts hok).2.1
    simp at h2
  · -- processDirectory, subtree check throws: impossible on an allOk tree
    intro cur rel lvl n sF rF cs hrf e herr _ hok
    have h4 := allOk_dir_parts hok
    rcases filter with _ | exts
    · simp [hasIncludedFiles] at herr
    · rw [h4.2.1] at herr
      simp [hasIncludedFiles, checkItems_spec exts cur cs h4.2.2] at herr
  · -- processDirectory, subtree check is false: nothing is emitted and the
    -- spec sequence is empty as well
    intro cur rel lvl n sF rF cs hrf hok _ hallok
    have h4 := allOk_dir_parts hallok
    rcases filter with _ | exts
    · simp [hasIncludedFiles] at hok
    · have h5 : anyIncludedList exts cs = false := by
        have h6 := checkItems_spec exts cur cs h4.2.2
        rw [h4.2.1] at hok
        simp [hasIncludedFiles] at hok
        exact Except.ok.inj (h6.symm.trans hok)
      rw [h4.2.1] at hok
      simp [processDirectory, hrf, hok, FSTree.childrenList,
        specRows_nil_of_no_match exts ex rel lvl cs h5]
  · -- processDirectory, loop finishes cleanly
    intro cur rel lvl n sF rF cs hrf hok rows logs hpi ih2 _ hallok
    have h4 := allOk_dir_parts hallok
    have h6 := ih2 h4.2.2
    rw [hpi] at h6
    simp only [Prod.mk.injEq] at h6
    rw [h4.2.1] at hok
    simp [processDirectory, hrf, hok, hpi, FSTree.childrenList, h6.1, h6.2.1]
  · -- processDirectory, loop throws: impossible on an allOk tree
    intro cur rel lvl n sF rF cs hrf hok rows logs e hpi ih2 _ hallok
    have h4 := allOk_dir_parts hallok
    have h6 := ih2 h4.2.2
    rw [hpi] at h6
    simp at h6
  · -- loop, empty listing
    intro cur rel lvl _
    simp [procItems, specRows.eq_def]
  · -- loop, excluded child is skipped by both sequences
    intro cur rel lvl c rest item childRel hexcl ih hallok
    have hp := allOkList_parts hallok
    have hexcl2 : shouldExclude (childRelPath rel c.name) ex = true := hexcl
    have h8 : procItems filter ex cur rel lvl (c :: rest) =
        procItems filter ex cur rel lvl rest := by
      rw [procItems.eq_def]
      simp [hexcl2]
    rw [h8, ih hp.2]
    conv_rhs => rw [specRows.eq_def]
    simp [hexcl2]
  · -- loop, stat failure: impossible on an allOk tree
    intro cur rel lvl c rest item childRel hexcl hsf hallok
    exact absurd hsf (by simp [allOk_statFails (allOkList_parts hallok).1])
  · -- loop, matching file: emitted by both sequences
    intro cur rel lvl rest n sF hinc rows logs err hpi item childRel hexcl hsf ih hallok
    have hp := allOkList_parts hallok
    have h6 := ih hp.2
    rw [hpi] at h6
    simp only [Prod.mk.injEq] at h6
    have hexcl2 : shouldExclude (childRelPath rel n) ex = false := by simpa using hexcl
    rw [specRows.eq_def]
    simp [procItems, hexcl2, hsf, hinc, hpi, specKeeps, FSTree.name, h6.1, h6.2.1, h6.2.2]
  · -- loop, non-matching file: skipped by both sequences
    intro cur rel lvl rest n sF hninc item childRel hexcl hsf ih hallok
    have hp := allOkList_parts hallok
    have hexcl2 : shouldExclude (childRelPath rel n) ex = false := by simpa using hexcl
    rw [specRows.eq_def]
    simp [procItems, hexcl2, hsf, hninc, specKeeps, FSTree.name, ih hp.2]
  · -- loop, subtree check of a child throws: impossible on an allOk tree
    intro cur rel lvl rest n sF rF cs e item childCur childRel hexcl hsf herr hallok
    have h4 := allOk_dir_parts (allOkList_parts hallok).1
    have herr2 : hasIncludedFiles filter (cur ++ "/" ++ n) rF cs = .error e := herr
    rcases filter with _ | exts
    · simp [hasIncludedFiles] at herr2
    · rw [h4.2.1] at herr2
      simp [hasIncludedFiles, checkItems_spec exts (cur ++ "/" ++ n) cs h4.2.2] at herr2
  · -- loop, child directory with no matching file: skipped by both sequences
    intro cur rel lvl rest n sF rF cs item childCur childRel hexcl hsf hok ih hallok
    have hp := allOkList_parts hallok
    have h4 := allOk_dir_parts hp.1
    have hok2 : hasIncludedFiles filter (cur ++ "/" ++ n) rF cs = .ok false := hok
    have hkeep : specKeeps filter (FSTree.dir n sF rF cs) = false := by
      rcases filter with _ | exts
      · simp [hasIncludedFiles] at hok2
      · rw [h4.2.1] at hok2
        simp [hasIncludedFiles] at hok2
        have h5 : anyIncludedList exts cs = false :=
          Except.ok.inj ((checkItems_spec exts (cur ++ "/" ++ n) cs h4.2.2).symm.trans hok2)
        simp [specKeeps, h5]
    have hexcl2 : shouldExclude (childRelPath rel n) ex = false := by simpa using hexcl
    rw [specRows.eq_def]
    simp [procItems, hexcl2, hsf, hok2, hkeep, FSTree.name, ih hp.2]
  · -- loop, kept child directory: emitted, then its whole block, then the rest
    intro cur rel lvl rest n sF rF cs rows logs err hpi item childCur childRel hexcl hsf hok
      ih1 ih2 hallok
    have hp := allOkList_parts hallok
    have h4 := allOk_dir_parts hp.1
    have hsub := ih1 (by simp [FSTree.isDir]) hp.1
    have h6 := ih2 hp.2
    rw [hpi] at h6
    simp only [Prod.mk.injEq] at h6
    have hok2 : hasIncludedFiles filter (cur ++ "/" ++ n) rF cs = .ok true := hok
    have hkeep : specKeeps filter (FSTree.dir n sF rF cs) = true := by
      rcases filter with _ | exts
      · simp [specKeeps]
      · rw [h4.2.1] at hok2
        simp [hasIncludedFiles] at hok2
        have h5 : anyIncludedList exts cs = true :=
          Except.ok.inj ((checkItems_spec exts (cur ++ "/" ++ n) cs h4.2.2).symm.trans hok2)
        simp [specKeeps, h5]
    have hexcl2 : shouldExclude (childRelPath rel n) ex = false := by simpa using hexcl
    have hsub2 : processDirectory filter ex (FSTree.dir n sF rF cs) (cur ++ "/" ++ n)
        (childRelPath rel n) (lvl + 1) =
        (specRows filter ex (childRelPath rel n) (lvl + 1) cs, []) := hsub
    rw [specRows.eq_def]
    simp [procItems, hexcl2, hsf, hok2, hpi, hkeep, hsub2, FSTree.name, FSTree.childrenList,
      h6.1, h6.2.1, h6.2.2]

theorem processDirectory_spec (filter : Option (List String)) (ex : List String)
    (cur rel : String) (lvl : Nat) (n : String) (sF : Bool) (cs : List FSTree)
    (h : allOkList cs = true) :
    processDirectory filter ex (.dir n sF false cs) cur rel lvl =
      (specRows filter ex rel lvl cs, []) := by
  rcases filter with _ | exts
  · rw [processDirectory.eq_def]
    simp [hasIncludedFiles, procItems_spec none ex cur rel lvl cs h]
  · by_cases hany : anyIncludedList exts cs = true
    · rw [processDirectory.eq_def]
      simp [hasIncludedFiles, checkItems_spec exts cur cs h, hany,
        procItems_spec (some exts) ex cur rel lvl cs h]
    · have hany2 : anyIncludedList exts cs = false := by simpa using hany
      rw [processDirectory.eq_def]
      simp [hasIncludedFiles, checkItems_spec exts cur cs h, hany2,
        specRows_nil_of_no_match exts ex rel lvl cs hany2]

/-- C8: on a run free of filesystem errors the walker's emitted sequence
is exactly the pre-order sequence `specRows`: each kept child's row is
emitted immediately before the rows of that child's own subtree, siblings
appear in the order of the directory listing with no sorting introduced,
and nothing is logged; concretely, a root listing `{z, a, dir1/}` is
emitted verbatim in that order. -/
theorem walker_emits_preorder (filter : Option (List String)) (ex : List String)
    (cur rel : String) (lvl : Nat) (n : String) (sF : Bool) (cs : List FSTree)
    (h : allOkList cs = true) :
    processDirectory filter ex (.dir n sF false cs) cur rel lvl =
      (specRows filter ex rel lvl cs, []) ∧
      (∀ ts : List FSTree, allOkList ts = true →
        procItems filter ex cur rel lvl ts = (specRows filter ex rel lvl ts, [], none)) ∧
      processDirectory none [] (.dir "root" false false
          [.file "z" false, .file "a" false, .dir "dir1" false false []]) "/b" "" 0 =
        ([⟨0, "File", "z", "z", "pending"⟩, ⟨0, "File", "a", "a", "pending"⟩,
          ⟨0, "Directory", "dir1", "dir1/", "pending"⟩], []) := by
  refine ⟨processDirectory_spec filter ex cur rel lvl n sF cs h,
    fun ts hts => procItems_spec filter ex cur rel lvl ts hts, ?_⟩
  simp +decide [processDirectory, procItems, hasIncludedFiles, shouldExclude,
    shouldIncludeFile, mkEntry, FSTree.name, FSTree.statFails, childRelPath, indentChars]

/-- Witness for C8 at a concrete error-free tree. -/
theorem walker_emits_preorder_witness :
    processDirectory none ["q"] (.dir "root" false false
        [.file "z" false, .file "a" false, .dir "dir1" false false []]) "/b" "" 0 =
      (specRows none ["q"] "" 0
        [.file "z" false, .file "a" false, .dir "dir1" false false []], []) :=
  (walker_emits_preorder none ["q"] "/b" "" 0 "root" false
    [.file "z" false, .file "a" false, .dir "dir1" false false []]
    (by simp [allOkList, FSTree.allOk])).1

/-- C2 counterexample: a run over a root whose listing fails (missing or
unreadable root) still produces a report: the walker catches the error at
the root, only logs it with the root path, and `generateExcel` then writes
the workbook with zero data rows — the run is not aborted and nothing is
surfaced to the caller. -/
theorem generateExcel_bad_root_counterexample :
    generateExcel none "" (.dir "root" false true [.file "a.js" false]) "/base" =
      ⟨[], [("/base", readErrMsg "/base")]⟩ := by
  simp [generateExcel, processDirectory]

/-- C2 (amended): when the root cannot be listed — `readdirSync` on it
throws, covering a missing path, an unreadable directory and a non-
directory root — the walker catches the error at the root level, logs it
with the root path, emits no entries, and the report is still produced
with zero data rows; the error is not rethrown to the caller, whose own
`catch` would only fire on a failure of the final workbook write. -/
theorem generateExcel_root_error (filter : Option (List String)) (exContent : String)
    (n : String) (sF : Bool) (cs : List FSTree) (basePath : String) :
    generateExcel filter exContent (.dir n sF true cs) basePath =
      ⟨[], [(basePath, readErrMsg basePath)]⟩ ∧
      generateExcel filter exContent (.file n sF) basePath =
        ⟨[], [(basePath, readErrMsg basePath)]⟩ := by
  constructor <;> simp [generateExcel, processDirectory]

/-- C3 counterexample: in a root listing `[a, b, c]` where stat of `b`
throws, the walker emits `a`, then the error escapes the loop to the
directory-level catch: `c` is never processed, contradicting the claim
that the remaining siblings of the failing item are still processed. -/
theorem stat_error_drops_siblings_counterexample :
    processDirectory none ["q"]
        (.dir "root" false false [.file "a" false, .file "b" true, .file "c" false])
        "/base" "" 0 =
      ([⟨0, "File", "a", "a", "pending"⟩], [("/base", statErrMsg "/base/b")]) := by
  simp +decide [processDirectory, procItems, hasIncludedFiles, shouldExclude,
    shouldIncludeFile, mkEntry, FSTree.name, FSTree.statFails, childRelPath, indentChars]

/-- C3 (amended): a stat failure on a child is thrown to the enclosing
directory-level catch: the loop stops at that child and the remaining
siblings are not processed (the result does not depend on them at all),
while rows emitted by earlier iterations are kept and the error — naming
the failing child's path — is logged at that directory.  By contrast, a
readdir failure on a child directory (with no extension filter configured,
so the subtree check touches no filesystem) is caught inside the child's
own recursive call: the child's row is still emitted, the failure is
logged with the child's path, and the siblings after it are still
processed. -/
theorem traversal_error_containment (ex : List String) (cur rel : String) (lvl : Nat)
    (bn dn : String) (cs rest : List FSTree)
    (hb : shouldExclude (childRelPath rel bn) ex = false)
    (hd : shouldExclude (childRelPath rel dn) ex = false) :
    procItems none ex cur rel lvl (.file bn true :: rest) =
      ([], [], some (statErrMsg (cur ++ "/" ++ bn))) ∧
      procItems none ex cur rel lvl (.dir dn false true cs :: rest) =
        (mkEntry lvl true dn (childRelPath rel dn) ::
            (procItems none ex cur rel lvl rest).1,
          (cur ++ "/" ++ dn, readErrMsg (cur ++ "/" ++ dn)) ::
            (procItems none ex cur rel lvl rest).2.1,
          (procItems none ex cur rel lvl rest).2.2) := by
  constructor
  · rw [procItems.eq_def]
    simp [FSTree.name, FSTree.statFails, hb]
  · rw [procItems.eq_def]
    rcases hrest : procItems none ex cur rel lvl rest with ⟨r, l, e⟩
    simp [FSTree.name, FSTree.statFails, hd, hasIncludedFiles, processDirectory, hrest]

/-- Witness for the amended C3 at a concrete listing. -/
theorem traversal_error_containment_witness :
    procItems none ["q"] "/base" "" 0 [.file "b" true, .file "c" false] =
      ([], [], some (statErrMsg ("/base" ++ "/" ++ "b"))) ∧
      procItems none ["q"] "/base" "" 0 [.dir "d" false true [], .file "c" false] =
        (mkEntry 0 true "d" (childRelPath "" "d") ::
            (procItems none ["q"] "/base" "" 0 [.file "c" false]).1,
          ("/base" ++ "/" ++ "d", readErrMsg ("/base" ++ "/" ++ "d")) ::
            (procItems none ["q"] "/base" "" 0 [.file "c" false]).2.1,
          (procItems none ["q"] "/base" "" 0 [.file "c" false]).2.2) :=
  traversal_error_containment ["q"] "/base" "" 0 "b" "d" [] [.file "c" false]
    (by decide) (by decide)

/-- C7: the subtree check consults only the subtree and the filter — its
embedding takes no exclusion argument — so the walker's keep-decision for
a child directory depends on the exclusion set only through the
directory's own path: for EVERY exclusion set under which the directory
itself is not excluded, the directory's row is emitted whenever the
subtree check passes, even when the set excludes every matching
descendant.  Concretely, with filter `{ts}` and exclusion file content
`d/a.ts`, the directory `d` — whose only matching descendant `d/a.ts` is
excluded — is still judged non-empty and emitted, and nothing beneath it
is emitted. -/
theorem hasIncludedFiles_ignores_exclusions (filter : Option (List String))
    (ex : List String) (cur rel : String) (lvl : Nat) (dn : String) (rF : Bool)
    (cs rest : List FSTree)
    (hx : shouldExclude (childRelPath rel dn) ex = false)
    (hh : hasIncludedFiles filter (cur ++ "/" ++ dn) rF cs = .ok true) :
    procItems filter ex cur rel lvl (.dir dn false rF cs :: rest) =
      (mkEntry lvl true dn (childRelPath rel dn) ::
          ((processDirectory filter ex (.dir dn false rF cs) (cur ++ "/" ++ dn)
              (childRelPath rel dn) (lvl + 1)).1 ++
            (procItems filter ex cur rel lvl rest).1),
        (processDirectory filter ex (.dir dn false rF cs) (cur ++ "/" ++ dn)
            (childRelPath rel dn) (lvl + 1)).2 ++
          (procItems filter ex cur rel lvl rest).2.1,
        (procItems filter ex cur rel lvl rest).2.2) ∧
      generateExcel (some ["ts"]) "d/a.ts\n"
          (.dir "root" false false [.dir "d" false false [.file "a.ts" false]]) "/base" =
        ⟨[⟨0, "Directory", "d", "d/", "pending"⟩], []⟩ := by
  constructor
  · rw [procItems.eq_def]
    rcases hrest : procItems filter ex cur rel lvl rest with ⟨r, l, e⟩
    simp [FSTree.name, FSTree.statFails, hx, hh, hrest]
  · simp +decide [generateExcel, processDirectory, procItems, hasIncludedFiles, checkItems,
      getExclusionList, shouldExclude, shouldIncludeFile, mkEntry, FSTree.name,
      FSTree.statFails, childRelPath, indentChars]

/-- Witness for C7 at a concrete directory child. -/
theorem hasIncludedFiles_ignores_exclusions_witness :
    procItems none ["d/x"] "/base" "" 0 [.dir "d" false false [.file "x" false]] =
      (mkEntry 0 true "d" (childRelPath "" "d") ::
          ((processDirectory none ["d/x"] (.dir "d" false false [.file "x" false])
              ("/base" ++ "/" ++ "d") (childRelPath "" "d") (0 + 1)).1 ++
            (procItems none ["d/x"] "/base" "" 0 []).1),
        (processDirectory none ["d/x"] (.dir "d" false false [.file "x" false])
            ("/base" ++ "/" ++ "d") (childRelPath "" "d") (0 + 1)).2 ++
          (procItems none ["d/x"] "/base" "" 0 []).2.1,
        (procItems none ["d/x"] "/base" "" 0 []).2.2) :=
  (hasIncludedFiles_ignores_exclusions none ["d/x"] "/base" "" 0 "d" false
    [.file "x" false] [] (by decide) rfl).1

/-! ## Path structure of emitted rows -/

theorem okName_parts {n : String} (h : okName n = true) :
    n ≠ "" ∧ ∀ c ∈ n.data, isSep c = false := by
  unfold okName at h
  rw [Bool.and_eq_true] at h
  constructor
  · intro h2
    subst h2
    simp at h
    exact absurd h (by decide)
  · intro c hc
    have h3 := h.2
    rw [List.all_eq_true] at h3
    simpa using h3 c hc

theorem normSegs_nil : normSegs ([] : List Char) = [] := rfl

theorem normSegs_of_okName {n : String} (h : okName n = true) :
    normSegs n.data = [n.data] := by
  obtain ⟨h1, h2⟩ := okName_parts h
  unfold normSegs
  rw [splitBy_of_sep_free isSep n.data h2]
  simp [List.isEmpty_iff, data_ne_nil_of_ne_empty h1]

theorem childRel_segs {rel : String} {item : String} (h : okName item = true) :
    normSegs (childRelPath rel item).data = normSegs rel.data ++ [item.data] := by
  unfold childRelPath
  by_cases hr : rel = ""
  · subst hr
    rw [if_pos rfl, normSegs_of_okName h]
    rfl
  · rw [if_neg hr]
    have hdata : (rel ++ "/" ++ item).data = rel.data ++ '/' :: item.data := by
      rw [String.data_append, slash_data_append, List.append_assoc]
      rfl
    rw [hdata, normSegs_append_sep (by decide), normSegs_of_okName h]

theorem childRel_canon {rel item : String} (hc : normalizePath rel = rel)
    (h : okName item = true) :
    normalizePath (childRelPath rel item) = childRelPath rel item := by
  apply String.ext
  rw [normalizePath_data, childRel_segs h]
  by_cases hr : rel = ""
  · subst hr
    show joinSep (normSegs [] ++ [item.data]) = _
    rw [normSegs_nil]
    simp [childRelPath, joinSep]
  · have hA := normSegs_ne_nil_of_canon hc hr
    rw [joinSep_append (by simp) _ hA, canon_data hc]
    show rel.data ++ '/' :: item.data = (childRelPath rel item).data
    rw [childRelPath, if_neg hr, String.data_append, slash_data_append, List.append_assoc]
    rfl

theorem parentPath_childRel {rel item : String} (hc : normalizePath rel = rel)
    (h : okName item = true) : parentPath (childRelPath rel item) = rel := by
  unfold parentPath pathSegs
  rw [childRel_segs h, List.dropLast_concat]
  exact String.ext (canon_data hc)

theorem lastSeg_childRel {rel item : String} (h : okName item = true) :
    lastSeg (childRelPath rel item) = item := by
  unfold lastSeg pathSegs
  rw [childRel_segs h, List.getLastD_concat]

theorem pathSegs_slash (p : String) : pathSegs (p ++ "/") = pathSegs p := by
  unfold pathSegs
  rw [slash_data_append,
    show p.data ++ ['/'] = p.data ++ '/' :: ([] : List Char) from rfl,
    normSegs_append_sep (by decide), normSegs_nil, List.append_nil]

theorem stripSlash_slash (p : String) : stripSlash (p ++ "/") = p := by
  unfold stripSlash
  rw [slash_data_append, List.getLast?_concat]
  simp [List.dropLast_concat]

theorem lastSeg_slash (p : String) : lastSeg (p ++ "/") = lastSeg p := by
  unfold lastSeg
  rw [pathSegs_slash]

theorem parentPath_slash (p : String) : parentPath (p ++ "/") = parentPath p := by
  unfold parentPath
  rw [pathSegs_slash]

theorem mkEntry_path_file (lvl : Nat) (item rel : String) :
    (mkEntry lvl false item rel).path = rel := by
  show rel ++ "" = rel
  exact String.append_empty rel

theorem mkEntry_path_dir (lvl : Nat) (item rel : String) :
    (mkEntry lvl true item rel).path = rel ++ "/" := rfl

theorem entryNameOK_mkEntry_file {item : String} (rel : String) (lvl : Nat)
    (h : okName item = true) :
    entryNameOK (mkEntry lvl false item (childRelPath rel item)) := by
  unfold entryNameOK
  rw [mkEntry_path_file, lastSeg_childRel h]
  exact ⟨rfl, h⟩

theorem entryNameOK_mkEntry_dir {item : String} (rel : String) (lvl : Nat)
    (h : okName item = true) :
    entryNameOK (mkEntry lvl true item (childRelPath rel item)) := by
  unfold entryNameOK
  rw [mkEntry_path_dir, lastSeg_slash, lastSeg_childRel h]
  exact ⟨rfl, h⟩

theorem rowsWF_nil (rel : String) (lvl : Nat) : rowsWF rel lvl [] := by
  intro l₁ e l₂ h
  simp at h

theorem wf_of_rows_nil {rel : String} {lvl : Nat} {rows : List Entry} (h : rows = []) :
    (∀ e ∈ rows, entryNameOK e) ∧ rowsWF rel lvl rows := by
  subst h
  exact ⟨by simp, rowsWF_nil rel lvl⟩

theorem split_cons_append {α : Type} {x e : α} {A B l₁ l₂ : List α}
    (h : x :: (A ++ B) = l₁ ++ e :: l₂) :
    (l₁ = [] ∧ e = x) ∨
      (∃ s₁ s₂, A = s₁ ++ e :: s₂ ∧ l₁ = x :: s₁) ∨
      (∃ r₁ r₂, B = r₁ ++ e :: r₂ ∧ l₁ = x :: (A ++ r₁)) := by
  cases l₁ with
  | nil =>
    left
    injection h with h1 h2
    exact ⟨rfl, h1.symm⟩
  | cons y l₁' =>
    right
    injection h with h1 h2
    subst h1
    rcases List.append_eq_append_iff.mp h2 with ⟨a', ha1, ha2⟩ | ⟨c', hc1, hc2⟩
    · right
      exact ⟨a', l₂, ha2, by rw [ha1]⟩
    · cases c' with
      | nil =>
        right
        refine ⟨[], l₂, by simpa using hc2.symm, ?_⟩
        simp [hc1]
      | cons w c'' =>
        left
        injection hc2 with h3 h4
        subst h3
        exact ⟨l₁', c'', by rw [hc1], rfl⟩

theorem rowsWF_cons {rel : String} {lvl : Nat} {E : Entry} {R : List Entry}
    (h1 : (pathSegs E.path).length = E.level + 1) (h2 : E.level = lvl)
    (h3 : parentPath E.path = rel) (hR : rowsWF rel lvl R) :
    rowsWF rel lvl (E :: R) := by
  intro l₁ e l₂ h
  rcases split_cons_append (A := ([] : List Entry)) (B := R) (by simpa using h) with
    ⟨hl, he⟩ | ⟨s₁, s₂, hs, _⟩ | ⟨r₁, r₂, hr1, hl⟩
  · subst he
    exact ⟨h1, le_of_eq h2.symm, fun _ => h3, fun hlt => absurd hlt (by omega)⟩
  · simp at hs
  · subst hl
    obtain ⟨ha, hb, hc, hd⟩ := hR r₁ e r₂ hr1
    refine ⟨ha, hb, hc, fun hlt => ?_⟩
    obtain ⟨d, hd1, hd2⟩ := hd hlt
    exact ⟨d, by simp [hd1], hd2⟩

theorem rowsWF_block {rel crel : String} {lvl : Nat} {E : Entry} {S R : List Entry}
    (h1 : (pathSegs E.path).length = E.level + 1) (h2 : E.level = lvl)
    (h3 : parentPath E.path = rel) (h4 : E.type = "Directory")
    (h5 : stripSlash E.path = crel)
    (hS : rowsWF crel (lvl + 1) S) (hR : rowsWF rel lvl R) :
    rowsWF rel lvl (E :: (S ++ R)) := by
  intro l₁ e l₂ h
  rcases split_cons_append h with ⟨hl, he⟩ | ⟨s₁, s₂, hs, hl⟩ | ⟨r₁, r₂, hr1, hl⟩
  · subst he
    exact ⟨h1, le_of_eq h2.symm, fun _ => h3, fun hlt => absurd hlt (by omega)⟩
  · subst hl
    obtain ⟨ha, hb, hc, hd⟩ := hS s₁ e s₂ hs
    refine ⟨ha, by omega, fun heq => absurd heq (by omega), fun hlt => ?_⟩
    by_cases hcase : e.level = lvl + 1
    · refine ⟨E, by simp, h4, by omega, ?_⟩
      rw [h5]
      exact (hc hcase).symm
    · obtain ⟨d, hd1, hd2⟩ := hd (by omega)
      exact ⟨d, by simp [hd1], hd2⟩
  · subst hl
    obtain ⟨ha, hb, hc, hd⟩ := hR r₁ e r₂ hr1
    refine ⟨ha, hb, hc, fun hlt => ?_⟩
    obtain ⟨d, hd1, hd2⟩ := hd hlt
    exact ⟨d, by simp [hd1], hd2⟩

theorem cleanNamesList_parts {c : FSTree} {rest : List FSTree}
    (h : cleanNamesList (c :: rest) = true) :
    c.cleanNames = true ∧ cleanNamesList rest = true := by
  simpa [cleanNamesList] using h

theorem cleanNames_dir_parts {n : String} {sF rF : Bool} {cs : List FSTree}
    (h : (FSTree.dir n sF rF cs).cleanNames = true) :
    okName n = true ∧ cleanNamesList cs = true := by
  simpa [FSTree.cleanNames] using h

theorem cleanNames_file_ok {n : String} {sF : Bool}
    (h : (FSTree.file n sF).cleanNames = true) : okName n = true := by
  simpa [FSTree.cleanNames] using h

theorem walker_rows_wf (filter : Option (List String)) (ex : List String) :
    ∀ (cur rel : String) (lvl : Nat) (ts : List FSTree), cleanNamesList ts = true →
      normalizePath rel = rel → (pathSegs rel).length = lvl →
      (∀ e ∈ (procItems filter ex cur rel lvl ts).1, entryNameOK e) ∧
      rowsWF rel lvl (procItems filter ex cur rel lvl ts).1 := by
  refine procItems.induct filter ex
    (fun t cur rel lvl => cleanNamesList t.childrenList = true →
      normalizePath rel = rel → (pathSegs rel).length = lvl →
      (∀ e ∈ (processDirectory filter ex t cur rel lvl).1, entryNameOK e) ∧
      rowsWF rel lvl (processDirectory filter ex t cur rel lvl).1)
    (fun cur rel lvl ts => cleanNamesList ts = true →
      normalizePath rel = rel → (pathSegs rel).length = lvl →
      (∀ e ∈ (procItems filter ex cur rel lvl ts).1, entryNameOK e) ∧
      rowsWF rel lvl (procItems filter ex cur rel lvl ts).1)
    ?_ ?_ ?_ ?_ ?_ ?_ ?_ ?_ ?_ ?_ ?_ ?_ ?_ ?_
  · -- processDirectory on a file node emits nothing
    intro cur rel lvl n sF _ _ _
    exact wf_of_rows_nil (by simp [processDirectory])
  · -- processDirectory, readdir fails: nothing emitted
    intro cur rel lvl n sF cs _ _ _
    exact wf_of_rows_nil (by simp [processDirectory])
  · -- processDirectory, subtree check throws: nothing emitted
    intro cur rel lvl n sF rF cs hrf e herr _ _ _
    rw [Bool.not_eq_true] at hrf
    rw [hrf] at herr
    exact wf_of_rows_nil (by simp [processDirectory, hrf, herr])
  · -- processDirectory, subtree check false: nothing emitted
    intro cur rel lvl n sF rF cs hrf hok _ _ _
    rw [Bool.not_eq_true] at hrf
    rw [hrf] at hok
    exact wf_of_rows_nil (by simp [processDirectory, hrf, hok])
  · -- processDirectory, loop runs to completion: rows are the loop's rows
    intro cur rel lvl n sF rF cs hrf hok rows logs hpi ih hcl hcan hlen
    rw [Bool.not_eq_true] at hrf
    rw [hrf] at hok
    have h6 := ih hcl hcan hlen
    have hrw : (processDirectory filter ex (.dir n sF rF cs) cur rel lvl).1 =
        (procItems filter ex cur rel lvl cs).1 := by
      simp [processDirectory, hrf, hok, hpi]
    rw [hrw]
    exact h6
  · -- processDirectory, loop throws midway: rows are the loop's rows
    intro cur rel lvl n sF rF cs hrf hok rows logs e hpi ih hcl hcan hlen
    rw [Bool.not_eq_true] at hrf
    rw [hrf] at hok
    have h6 := ih hcl hcan hlen
    have hrw : (processDirectory filter ex (.dir n sF rF cs) cur rel lvl).1 =
        (procItems filter ex cur rel lvl cs).1 := by
      simp [processDirectory, hrf, hok, hpi]
    rw [hrw]
    exact h6
  · -- loop, empty listing
    intro cur rel lvl _ _ _
    exact wf_of_rows_nil (by simp [procItems])
  · -- loop, excluded child
    intro cur rel lvl c rest item childRel hexcl ih hcl hcan hlen
    have hexcl2 : shouldExclude (childRelPath rel c.name) ex = true := hexcl
    have hrw : (procItems filter ex cur rel lvl (c :: rest)).1 =
        (procItems filter ex cur rel lvl rest).1 := by
      rw [procItems.eq_def]
      simp [hexcl2]
    rw [hrw]
    exact ih (cleanNamesList_parts hcl).2 hcan hlen
  · -- loop, stat failure: loop aborts, nothing emitted here
    intro cur rel lvl c rest item childRel hexcl hsf hcl hcan hlen
    have hexcl2 : shouldExclude (childRelPath rel c.name) ex = false := by simpa using hexcl
    have hsf2 : c.statFails = true := hsf
    exact wf_of_rows_nil (by rw [procItems.eq_def]; simp [hexcl2, hsf2])
  · -- loop, matching file: its row, then the rest
    intro cur rel lvl rest n sF hinc rows logs err hpi item childRel hexcl hsf ih hcl hcan hlen
    have hcp := cleanNamesList_parts hcl
    have hok : okName n = true := cleanNames_file_ok hcp.1
    have hexcl2 : shouldExclude (childRelPath rel n) ex = false := by simpa using hexcl
    have h6 := ih hcp.2 hcan hlen
    have hsf2 : sF = false := by simpa [FSTree.statFails] using hsf
    have hrw : (procItems filter ex cur rel lvl (.file n sF :: rest)).1 =
        mkEntry lvl false n (childRelPath rel n) ::
          (procItems filter ex cur rel lvl rest).1 := by
      rw [procItems.eq_def]
      rcases hpi2 : procItems filter ex cur rel lvl rest with ⟨r, l, e2⟩
      simp [hexcl2, hsf2, hinc, FSTree.name, FSTree.statFails, hpi2]
    rw [hrw]
    constructor
    · intro e he
      rcases List.mem_cons.mp he with he1 | he2
      · subst he1
        exact entryNameOK_mkEntry_file rel lvl hok
      · exact h6.1 e he2
    · refine rowsWF_cons ?_ rfl ?_ h6.2
      · rw [mkEntry_path_file]
        show (pathSegs (childRelPath rel n)).length = lvl + 1
        unfold pathSegs at hlen ⊢
        rw [childRel_segs hok, List.length_append, hlen]
        rfl
      · rw [mkEntry_path_file]
        exact parentPath_childRel hcan hok
  · -- loop, non-matching file: skipped
    intro cur rel lvl rest n sF hninc item childRel hexcl hsf ih hcl hcan hlen
    have hexcl2 : shouldExclude (childRelPath rel n) ex = false := by simpa using hexcl
    have hsf2 : sF = false := by simpa [FSTree.statFails] using hsf
    have hrw : (procItems filter ex cur rel lvl (.file n sF :: rest)).1 =
        (procItems filter ex cur rel lvl rest).1 := by
      rw [procItems.eq_def]
      simp [hexcl2, hsf2, hninc, FSTree.name, FSTree.statFails]
    rw [hrw]
    exact ih (cleanNamesList_parts hcl).2 hcan hlen
  · -- loop, child subtree check throws: loop aborts, nothing emitted here
    intro cur rel lvl rest n sF rF cs e item childCur childRel hexcl hsf herr hcl hcan hlen
    have hexcl2 : shouldExclude (childRelPath rel n) ex = false := by simpa using hexcl
    have hsf2 : sF = false := by simpa [FSTree.statFails] using hsf
    have herr2 : hasIncludedFiles filter (cur ++ "/" ++ n) rF cs = .error e := herr
    refine wf_of_rows_nil ?_
    rw [procItems.eq_def]
    simp [hexcl2, hsf2, herr2, FSTree.name, FSTree.statFails]
  · -- loop, child directory with empty subtree check: skipped
    intro cur rel lvl rest n sF rF cs item childCur childRel hexcl hsf hok ih hcl hcan hlen
    have hexcl2 : shouldExclude (childRelPath rel n) ex = false := by simpa using hexcl
    have hok2 : hasIncludedFiles filter (cur ++ "/" ++ n) rF cs = .ok false := hok
    have hsf2 : sF = false := by simpa [FSTree.statFails] using hsf
    have hrw : (procItems filter ex cur rel lvl (.dir n sF rF cs :: rest)).1 =
        (procItems filter ex cur rel lvl rest).1 := by
      rw [procItems.eq_def]
      simp [hexcl2, hsf2, hok2, FSTree.name, FSTree.statFails]
    rw [hrw]
    exact ih (cleanNamesList_parts hcl).2 hcan hlen
  · -- loop, kept child directory: its row, its subtree's rows, then the rest
    intro cur rel lvl rest n sF rF cs rows logs err hpi item childCur childRel hexcl hsf hok
      ih1 ih2 hcl hcan hlen
    have hcp := cleanNamesList_parts hcl
    have hnm := cleanNames_dir_parts hcp.1
    have hexcl2 : shouldExclude (childRelPath rel n) ex = false := by simpa using hexcl
    have hok2 : hasIncludedFiles filter (cur ++ "/" ++ n) rF cs = .ok true := hok
    have hccan := childRel_canon hcan hnm.1
    have hclen : (pathSegs (childRelPath rel n)).length = lvl + 1 := by
      unfold pathSegs at hlen ⊢
      rw [childRel_segs hnm.1, List.length_append, hlen]
      rfl
    have hsub := ih1 hnm.2 hccan hclen
    have h6 := ih2 hcp.2 hcan hlen
    have hsf2 : sF = false := by simpa [FSTree.statFails] using hsf
    have hrw : (procItems filter ex cur rel lvl (.dir n sF rF cs :: rest)).1 =
        mkEntry lvl true n (childRelPath rel n) ::
          ((processDirectory filter ex (.dir n sF rF cs) (cur ++ "/" ++ n)
              (childRelPath rel n) (lvl + 1)).1 ++
            (procItems filter ex cur rel lvl rest).1) := by
      rw [procItems.eq_def]
      rcases hpi2 : procItems filter ex cur rel lvl rest with ⟨r, l, e2⟩
      simp [hexcl2, hsf2, hok2, FSTree.name, FSTree.statFails, hpi2]
    rw [hrw]
    constructor
    · intro e he
      rcases List.mem_cons.mp he with he1 | he2
      · subst he1
        exact entryNameOK_mkEntry_dir rel lvl hnm.1
      · rcases List.mem_append.mp he2 with h7 | h7
        · exact hsub.1 e h7
        · exact h6.1 e h7
    · refine rowsWF_block ?_ rfl ?_ rfl (stripSlash_slash (childRelPath rel n))
        hsub.2 h6.2
      · rw [mkEntry_path_dir, pathSegs_slash]
        exact hclen
      · rw [mkEntry_path_dir, parentPath_slash]
        exact parentPath_childRel hcan hnm.1

theorem processDirectory_rows (filter : Option (List String)) (ex : List String)
    (t : FSTree) (cur rel : String) (lvl : Nat) :
    (processDirectory filter ex t cur rel lvl).1 = [] ∨
      (processDirectory filter ex t cur rel lvl).1 =
        (procItems filter ex cur rel lvl t.childrenList).1 := by
  rw [processDirectory.eq_def]
  cases t with
  | file n sF => exact Or.inl rfl
  | dir n sF rF cs =>
    cases rF with
    | true => exact Or.inl (by simp)
    | false =>
      simp only [Bool.false_eq_true, if_false, FSTree.childrenList]
      cases hinc : hasIncludedFiles filter cur false cs with
      | error e => exact Or.inl (by simp)
      | ok b =>
        cases b with
        | false => exact Or.inl (by simp)
        | true =>
          right
          rcases hpi : procItems filter ex cur rel lvl cs with ⟨r, l, er⟩
          cases er <;> simp [hpi]

/-- C5 counterexample: at depth 1 the Name cell is not the raw segment
name and nothing else — the walker prepends two spaces per level, so the
file `f` inside the kept directory `d` is emitted with Name `"  f"`. -/
theorem entry_name_counterexample :
    ((processDirectory none ["q"] (.dir "root" false false
        [.dir "d" false false [.file "f" false]]) "/base" "" 0).1.map Entry.name =
      ["d", "  f"]) ∧ ("  f" : String) ≠ "f" := by
  refine ⟨?_, by decide⟩
  simp +decide [processDirectory, procItems, hasIncludedFiles, shouldExclude,
    shouldIncludeFile, mkEntry, FSTree.name, FSTree.statFails, childRelPath, indentChars]

/-- C5 (amended): in every run (rooted at relative path `""`, over a tree
whose listing names are well-formed) each emitted Entry's name equals the
indentation for its level — two spaces per level — followed by the raw
segment name of the filesystem item (the last segment of its path), which
is non-empty and contains no path components; at level 0 the indentation
is empty, so the Name cell is exactly the raw segment name. -/
theorem entry_name_indent_raw (filter : Option (List String)) (ex : List String)
    (t : FSTree) (cur : String) (hc : cleanNamesList t.childrenList = true) :
    ∀ e ∈ (processDirectory filter ex t cur "" 0).1,
      e.name = (⟨indentChars e.level⟩ : String) ++ lastSeg e.path ∧
        okName (lastSeg e.path) = true := by
  intro e he
  rcases processDirectory_rows filter ex t cur "" 0 with h | h
  · rw [h] at he
    simp at he
  · rw [h] at he
    exact (walker_rows_wf filter ex cur "" 0 t.childrenList hc (by decide) (by decide)).1 e he

/-- Witness for the amended C5 at a concrete run. -/
theorem entry_name_indent_raw_witness :
    (⟨1, "File", "  f", "d/f", "pending"⟩ : Entry).name =
      (⟨indentChars (⟨1, "File", "  f", "d/f", "pending"⟩ : Entry).level⟩ : String) ++
        lastSeg (⟨1, "File", "  f", "d/f", "pending"⟩ : Entry).path ∧
      okName (lastSeg (⟨1, "File", "  f", "d/f", "pending"⟩ : Entry).path) = true :=
  entry_name_indent_raw none ["q"]
    (.dir "root" false false [.dir "d" false false [.file "f" false]]) "/base"
    (by simp +decide [cleanNamesList, FSTree.cleanNames])
    ⟨1, "File", "  f", "d/f", "pending"⟩
    (by simp +decide [processDirectory, procItems, hasIncludedFiles, shouldExclude,
      shouldIncludeFile, mkEntry, FSTree.name, FSTree.statFails, childRelPath, indentChars])

/-- C10: in every run (rooted at relative path `""` and level 0, over a
tree whose listing names are well-formed) the emitted sequence forms a
well-formed tree: every Entry's relativePath has exactly `level + 1`
canonical segments — the level is the segment count minus one, hence
non-negative — and every Entry at level `k ≥ 1` is preceded in the
sequence by a Directory Entry at level `k - 1` whose relativePath, without
its trailing slash, is exactly the parent path of that Entry. -/
theorem walk_tree_shape (filter : Option (List String)) (ex : List String)
    (t : FSTree) (cur : String) (hc : cleanNamesList t.childrenList = true) :
    rowsWF "" 0 (processDirectory filter ex t cur "" 0).1 := by
  rcases processDirectory_rows filter ex t cur "" 0 with h | h <;> rw [h]
  · exact rowsWF_nil "" 0
  · exact (walker_rows_wf filter ex cur "" 0 t.childrenList hc (by decide) (by decide)).2

/-- Witness for C10 at a concrete run and a concrete decomposition of its
row sequence. -/
theorem walk_tree_shape_witness :
    (pathSegs (⟨1, "File", "  f", "d/f", "pending"⟩ : Entry).path).length =
      (⟨1, "File", "  f", "d/f", "pending"⟩ : Entry).level + 1 ∧
      ∃ d ∈ [(⟨0, "Directory", "d", "d/", "pending"⟩ : Entry)], d.type = "Directory" ∧
        d.level + 1 = (⟨1, "File", "  f", "d/f", "pending"⟩ : Entry).level ∧
        stripSlash d.path = parentPath (⟨1, "File", "  f", "d/f", "pending"⟩ : Entry).path := by
  have h := walk_tree_shape none ["q"]
    (.dir "root" false false [.dir "d" false false [.file "f" false]]) "/base"
    (by simp +decide [cleanNamesList, FSTree.cleanNames])
  have h2 := h [⟨0, "Directory", "d", "d/", "pending"⟩] ⟨1, "File", "  f", "d/f", "pending"⟩ []
    (by simp +decide [processDirectory, procItems, hasIncludedFiles, shouldExclude,
      shouldIncludeFile, mkEntry, FSTree.name, FSTree.statFails, childRelPath, indentChars])
  exact ⟨h2.1, h2.2.2.2 (by decide)⟩

end DirTree
